import Mathlib

/-!
Shallow embedding of the fractional base converter in `src/src/main.rs`.

The Rust program works on IEEE-754 binary64 (`f64`) values.  We embed an
`f64` value as the rational number it denotes, and each arithmetic
operation of the source (`fraction *= base`, `fraction -= digit as f64`)
as the exact rational operation followed by `rnd`, IEEE round-to-nearest,
ties-to-even rounding to 53 significand bits on the grid with minimum
exponent -1074 (the subnormal grid).  The embedding covers the finite
range of `f64`; no value arising here comes near overflow (2^1024).

Batteries marks the rational field operations irreducible; we restore
reducibility locally so that concrete runs of the converter reduce.
-/

attribute [local semireducible] Rat.add Rat.mul Rat.inv Rat.sub

set_option maxRecDepth 1000000

/-- Fuel-driven floor of the base-2 logarithm of a natural number.
The fuel is consumed once per halving, so fuel `n` suffices for input `n`. -/
def natLog2Aux : ℕ → ℕ → ℕ
  | 0, _ => 0
  | fuel + 1, n => if n ≤ 1 then 0 else natLog2Aux fuel (n / 2) + 1

/-- Floor of the base-2 logarithm of a natural number (0 for inputs 0 and 1). -/
def natLog2 (n : ℕ) : ℕ := natLog2Aux n n

/-- Floor of the base-2 logarithm of a positive rational. -/
def ratLog2 (q : ℚ) : ℤ :=
  let e0 : ℤ := (natLog2 q.num.toNat : ℤ) - (natLog2 q.den : ℤ)
  if (2 : ℚ) ^ e0 ≤ q then e0 else e0 - 1

/-- Exponent of the unit in the last place of a binary64 value of this
magnitude: 53-bit significands, clamped below at the subnormal grid 2^-1074. -/
def ulpExp (q : ℚ) : ℤ := max (ratLog2 q - 52) (-1074)

/-- Round a rational to the nearest integer, ties to the even integer. -/
def rhe (q : ℚ) : ℤ :=
  let n := ⌊q⌋
  let r := q - (n : ℚ)
  if r < 1 / 2 then n
  else if 1 / 2 < r then n + 1
  else if n % 2 = 0 then n else n + 1

/-- Round a positive rational to the binary64 grid at its own magnitude. -/
def rndPos (q : ℚ) : ℚ :=
  let e := ulpExp q
  (rhe (q / 2 ^ e) : ℚ) * 2 ^ e

/-- IEEE-754 binary64 round-to-nearest, ties-to-even, as a map on ℚ. -/
def rnd (q : ℚ) : ℚ :=
  if q < 0 then -rndPos (-q) else if q = 0 then 0 else rndPos q

/-- `MAX_DIGITS` from `src/src/main.rs` line 3. -/
def MAX_DIGITS : ℕ := 8

/-- Largest value of a Rust `u32`. -/
def u32max : ℕ := 4294967295

/-- Rust `x as u32` applied to an `f64` that is already an integer (the
result of `floor`): truncate toward zero and saturate into `[0, u32::MAX]`. -/
def u32ofFloat (x : ℚ) : ℕ := if x < 0 then 0 else min ⌊x⌋.toNat u32max

/-- The digit one iteration of the loop in `convert_from_decimal_to_binary`
emits from remainder `f`: `(fraction * base).floor() as u32`. -/
def stepDigit (b : ℕ) (f : ℚ) : ℕ := u32ofFloat (rnd (f * (b : ℚ)))

/-- The remainder one iteration of the loop leaves from remainder `f`:
the f64 result of `fraction * base - digit`. -/
def stepRem (b : ℕ) (f : ℚ) : ℚ :=
  rnd (rnd (f * (b : ℚ)) - (stepDigit b f : ℚ))

/-- The `for _ in 0..MAX_DIGITS` loop of `convert_from_decimal_to_binary`,
with the remaining iteration count as fuel and the string built so far as
accumulator.  Each iteration multiplies by the base (rounded), extracts the
digit by `floor` and `as u32`, appends `format!("{};", digit)`, subtracts
the digit back off (rounded), and stops early when the remainder is exactly
zero. -/
def convLoop (b : ℕ) : ℕ → String → ℚ → String
  | 0, res, _ => res
  | n + 1, res, f =>
    let x := rnd (f * (b : ℚ))
    let d := u32ofFloat x
    let res2 := res ++ Nat.repr d ++ ";"
    let f2 := rnd (x - (d : ℚ))
    if f2 = 0 then res2 else convLoop b n res2 f2

/-- `convert_from_decimal_to_binary` from `src/src/main.rs` lines 91-107. -/
def convert_from_decimal_to_binary (decimal : ℚ) (target_base : ℕ) : String :=
  convLoop target_base MAX_DIGITS "0." decimal

/-- The same loop recording, for each executed iteration, the emitted digit
and the remainder left after the subtraction step. -/
def traceAux (b : ℕ) : ℕ → ℚ → List (ℕ × ℚ)
  | 0, _ => []
  | n + 1, f =>
    (stepDigit b f, stepRem b f) ::
      (if stepRem b f = 0 then [] else traceAux b n (stepRem b f))

/-- Digit/remainder trace of a full run of the converter. -/
def traceConv (f : ℚ) (b : ℕ) : List (ℕ × ℚ) := traceAux b MAX_DIGITS f

/-- The digit sequence emitted by the converter. -/
def digitsOf (f : ℚ) (b : ℕ) : List ℕ := (traceConv f b).map Prod.fst

/-- Value denoted by a digit sequence in base `b`:
`sum (digit i * b ^ -(i+1))`. -/
def reconstruct (b : ℕ) : List ℕ → ℚ
  | [] => 0
  | d :: rest => ((d : ℚ) + reconstruct b rest) / (b : ℚ)

/-- Concatenation of a list of strings, in order. -/
def concatAll : List String → String
  | [] => ""
  | s :: rest => s ++ concatAll rest

/-- `f` has an exact finite expansion in base `b`: it is `k / b ^ n` for
some naturals `k`, `n`. -/
def FiniteExpansion (f : ℚ) (b : ℕ) : Prop :=
  ∃ n k : ℕ, f = (k : ℚ) / (b : ℚ) ^ n

/-- The finite binary64 values: an integer at most 2^53 in magnitude times a
power of two no smaller than the subnormal grid 2^-1074. -/
def RepF64 (q : ℚ) : Prop :=
  ∃ m e : ℤ, m.natAbs ≤ 2 ^ 53 ∧ -1074 ≤ e ∧ q = (m : ℚ) * 2 ^ e

/-- `parse_input` from `src/src/main.rs` lines 47-71, over an arbitrary
argument list (`env::args()`, whose element 0 is the program name) and
abstract models `pu` of `str::parse::<u32>` and `pf` of `str::parse::<f64>`.
The base is argument 1 parsed as a `u32`, defaulting to 2; the numbers are
the remaining arguments `flat_map`-ed through the `f64` parser, so a parse
failure contributes nothing. -/
def parse_input (pu : String → Option ℕ) (pf : String → Option ℚ)
    (args : List String) : ℕ × List ℚ :=
  let target_base : ℕ := ((args.get? 1).bind pu).getD 2
  let skip_count : ℕ := if ((args.get? 1).bind pu).isSome then 2 else 1
  let f64_numbers : List ℚ :=
    ((args.drop skip_count).map fun a => (pf a).toList).flatten
  (target_base, f64_numbers)

/-- A `u32` parser model that rejects every string (for concrete checks). -/
def puNone : String → Option ℕ := fun _ => none

/-- An `f64` parser model accepting only the string "0.5" (for concrete
checks). -/
def pfHalf : String → Option ℚ := fun s => if s = "0.5" then some (1 / 2) else none

/-- A concrete argument list whose base argument is malformed. -/
def argsDemo : List String := ["prog", "zz", "0.5", "junk"]

/-! ### Unfolding equations for the loop -/

theorem convLoop_zero (b : ℕ) (res : String) (f : ℚ) : convLoop b 0 res f = res := rfl

theorem convLoop_succ (b n : ℕ) (res : String) (f : ℚ) :
    convLoop b (n + 1) res f =
      if stepRem b f = 0 then res ++ Nat.repr (stepDigit b f) ++ ";"
      else convLoop b n (res ++ Nat.repr (stepDigit b f) ++ ";") (stepRem b f) := rfl

theorem traceAux_zero (b : ℕ) (f : ℚ) : traceAux b 0 f = [] := rfl

theorem traceAux_succ (b n : ℕ) (f : ℚ) :
    traceAux b (n + 1) f =
      (stepDigit b f, stepRem b f) ::
        (if stepRem b f = 0 then [] else traceAux b n (stepRem b f)) := rfl

/-! ### Structural lemmas about the loop -/

theorem traceAux_length_le (b : ℕ) : ∀ (n : ℕ) (f : ℚ), (traceAux b n f).length ≤ n := by
  intro n
  induction n with
  | zero => intro f; simp [traceAux_zero]
  | succ n ih =>
    intro f
    rw [traceAux_succ]
    by_cases h : stepRem b f = 0
    · simp [h]
    · rw [if_neg h]
      simpa using ih (stepRem b f)

theorem traceAux_length_of_ne_zero (b : ℕ) :
    ∀ (n : ℕ) (f : ℚ), (∀ p ∈ traceAux b n f, p.2 ≠ 0) → (traceAux b n f).length = n := by
  intro n
  induction n with
  | zero => intro f _; simp [traceAux_zero]
  | succ n ih =>
    intro f hall
    rw [traceAux_succ]
    have hmem : (stepDigit b f, stepRem b f) ∈ traceAux b (n + 1) f := by
      rw [traceAux_succ]; exact List.mem_cons_self _ _
    have hne : stepRem b f ≠ 0 := hall _ hmem
    rw [if_neg hne]
    have : ∀ p ∈ traceAux b n (stepRem b f), p.2 ≠ 0 := by
      intro p hp
      refine hall p ?_
      rw [traceAux_succ, if_neg hne]
      exact List.mem_cons_of_mem _ hp
    simp [ih (stepRem b f) this]

theorem traceAux_nonempty (b n : ℕ) (f : ℚ) : traceAux b (n + 1) f ≠ [] := by
  rw [traceAux_succ]; exact List.cons_ne_nil _ _

theorem traceAux_early_stop (b : ℕ) :
    ∀ (n : ℕ) (f : ℚ), (traceAux b n f).length < n →
      ∃ p, (traceAux b n f).getLast? = some p ∧ p.2 = 0 := by
  intro n
  induction n with
  | zero => intro f h; simp [traceAux_zero] at h
  | succ n ih =>
    intro f hlen
    rw [traceAux_succ]
    by_cases h : stepRem b f = 0
    · rw [if_pos h]
      exact ⟨(stepDigit b f, stepRem b f), by simp, h⟩
    · rw [if_neg h]
      rw [traceAux_succ, if_neg h] at hlen
      simp only [List.length_cons, Nat.add_lt_add_iff_right] at hlen
      obtain ⟨p, hp, hp2⟩ := ih (stepRem b f) hlen
      refine ⟨p, ?_, hp2⟩
      have hne : traceAux b n (stepRem b f) ≠ [] := by
        intro hnil
        rw [hnil] at hp
        simp at hp
      obtain ⟨hd, tl, hcons⟩ := List.exists_cons_of_ne_nil hne
      rw [hcons] at hp ⊢
      rw [List.getLast?_cons_cons]
      exact hp

theorem traceAux_dropLast_ne_zero (b : ℕ) :
    ∀ (n : ℕ) (f : ℚ), ∀ p ∈ (traceAux b n f).dropLast, p.2 ≠ 0 := by
  intro n
  induction n with
  | zero => intro f p hp; simp [traceAux_zero] at hp
  | succ n ih =>
    intro f p hp
    rw [traceAux_succ] at hp
    by_cases h : stepRem b f = 0
    · rw [if_pos h] at hp
      simp at hp
    · rw [if_neg h] at hp
      rcases n with _ | n
      · rw [traceAux_zero] at hp
        simp at hp
      · rw [List.dropLast_cons_of_ne_nil (traceAux_nonempty b n (stepRem b f))] at hp
        rcases List.mem_cons.mp hp with hfst | htail
        · rw [hfst]
          exact h
        · exact ih (stepRem b f) p htail

theorem convLoop_eq_trace (b : ℕ) :
    ∀ (n : ℕ) (res : String) (f : ℚ),
      convLoop b n res f =
        res ++ concatAll ((traceAux b n f).map fun p => Nat.repr p.1 ++ ";") := by
  intro n
  induction n with
  | zero =>
    intro res f
    rw [convLoop_zero, traceAux_zero]
    simp [concatAll]
  | succ n ih =>
    intro res f
    rw [convLoop_succ, traceAux_succ]
    by_cases h : stepRem b f = 0
    · rw [if_pos h, if_pos h]
      simp [concatAll, String.append_assoc]
    · rw [if_neg h, if_neg h, ih]
      simp [concatAll, String.append_assoc]

theorem convLoop_extends (b : ℕ) :
    ∀ (n : ℕ) (res : String) (f : ℚ), ∃ t, convLoop b n res f = res ++ t := by
  intro n res f
  exact ⟨_, convLoop_eq_trace b n res f⟩

/-! ### Properties of the rounding function -/

theorem natLog2Aux_bounds :
    ∀ (fuel n : ℕ), 1 ≤ n → n ≤ fuel →
      2 ^ natLog2Aux fuel n ≤ n ∧ n < 2 ^ (natLog2Aux fuel n + 1) := by
  intro fuel
  induction fuel with
  | zero => intro n h1 h2; omega
  | succ fuel ih =>
    intro n h1 h2
    by_cases hn : n ≤ 1
    · have hone : n = 1 := le_antisymm hn h1
      subst hone
      simp [natLog2Aux]
    · have hrec := ih (n / 2) (by omega) (by omega)
      have hval : natLog2Aux (fuel + 1) n = natLog2Aux fuel (n / 2) + 1 := by
        simp [natLog2Aux, hn]
      rw [hval]
      have e1 : (2 : ℕ) ^ (natLog2Aux fuel (n / 2) + 1) =
          2 * 2 ^ natLog2Aux fuel (n / 2) := by ring
      have e2 : (2 : ℕ) ^ (natLog2Aux fuel (n / 2) + 1 + 1) =
          4 * 2 ^ natLog2Aux fuel (n / 2) := by ring
      rw [e1, e2]
      omega

theorem natLog2_bounds (n : ℕ) (h : 1 ≤ n) :
    2 ^ natLog2 n ≤ n ∧ n < 2 ^ (natLog2 n + 1) :=
  natLog2Aux_bounds n n h le_rfl

theorem ratLog2_bounds (q : ℚ) (hq : 0 < q) :
    (2 : ℚ) ^ ratLog2 q ≤ q ∧ q < (2 : ℚ) ^ (ratLog2 q + 1) := by
  have hnum : 0 < q.num := Rat.num_pos.mpr hq
  have hn1 : 1 ≤ q.num.toNat := by omega
  have hd1 : 1 ≤ q.den := q.pos
  obtain ⟨ha1, ha2⟩ := natLog2_bounds _ hn1
  obtain ⟨hc1, hc2⟩ := natLog2_bounds _ hd1
  set a := natLog2 q.num.toNat with ha
  set c := natLog2 q.den with hc
  have hqeq : q = (q.num : ℚ) / (q.den : ℚ) := (Rat.num_div_den q).symm
  have hnumcast : (q.num.toNat : ℚ) = (q.num : ℚ) := by
    exact_mod_cast congrArg (fun z : ℤ => (z : ℚ)) (Int.toNat_of_nonneg hnum.le)
  have hdenpos : (0 : ℚ) < (q.den : ℚ) := by exact_mod_cast hd1
  have hA1 : (2 : ℚ) ^ (a : ℤ) ≤ (q.num : ℚ) := by
    rw [← hnumcast]
    rw [zpow_natCast]
    exact_mod_cast ha1
  have hA2 : (q.num : ℚ) < (2 : ℚ) ^ ((a : ℤ) + 1) := by
    rw [← hnumcast]
    have : ((a : ℤ) + 1) = ((a + 1 : ℕ) : ℤ) := by push_cast; ring
    rw [this, zpow_natCast]
    exact_mod_cast ha2
  have hC1 : (2 : ℚ) ^ (c : ℤ) ≤ (q.den : ℚ) := by
    rw [zpow_natCast]
    exact_mod_cast hc1
  have hC2 : (q.den : ℚ) < (2 : ℚ) ^ ((c : ℤ) + 1) := by
    have : ((c : ℤ) + 1) = ((c + 1 : ℕ) : ℤ) := by push_cast; ring
    rw [this, zpow_natCast]
    exact_mod_cast hc2
  have hupper : q < (2 : ℚ) ^ ((a : ℤ) - c + 1) := by
    rw [hqeq]
    have h2c : (0 : ℚ) < (2 : ℚ) ^ (c : ℤ) := by positivity
    have step : (q.num : ℚ) / (q.den : ℚ) < (2 : ℚ) ^ ((a : ℤ) + 1) / (2 : ℚ) ^ (c : ℤ) :=
      div_lt_div hA2 hC1 (by positivity) h2c
    calc (q.num : ℚ) / (q.den : ℚ)
        < (2 : ℚ) ^ ((a : ℤ) + 1) / (2 : ℚ) ^ (c : ℤ) := step
      _ = (2 : ℚ) ^ ((a : ℤ) - c + 1) := by
          rw [← zpow_sub₀ (two_ne_zero)]
          congr 1
          ring
  have hlower : (2 : ℚ) ^ ((a : ℤ) - c - 1) ≤ q := by
    rw [hqeq]
    have step : (2 : ℚ) ^ (a : ℤ) / (2 : ℚ) ^ ((c : ℤ) + 1) ≤ (q.num : ℚ) / (q.den : ℚ) :=
      div_le_div (by exact_mod_cast hnum.le) hA1 hdenpos hC2.le
    calc (2 : ℚ) ^ ((a : ℤ) - c - 1)
        = (2 : ℚ) ^ (a : ℤ) / (2 : ℚ) ^ ((c : ℤ) + 1) := by
          rw [← zpow_sub₀ (two_ne_zero)]
          congr 1
          ring
      _ ≤ (q.num : ℚ) / (q.den : ℚ) := step
  have hunfold : ratLog2 q =
      if (2 : ℚ) ^ ((a : ℤ) - c) ≤ q then (a : ℤ) - c else (a : ℤ) - c - 1 := by
    simp only [ratLog2, ← ha, ← hc]
  rw [hunfold]
  by_cases hcase : (2 : ℚ) ^ ((a : ℤ) - c) ≤ q
  · rw [if_pos hcase]
    exact ⟨hcase, hupper⟩
  · rw [if_neg hcase]
    refine ⟨hlower, ?_⟩
    have : q < (2 : ℚ) ^ ((a : ℤ) - c) := lt_of_not_le hcase
    calc q < (2 : ℚ) ^ ((a : ℤ) - c) := this
      _ = (2 : ℚ) ^ ((a : ℤ) - c - 1 + 1) := by congr 1; ring

theorem ulpExp_ge (q : ℚ) : -1074 ≤ ulpExp q := le_max_right _ _

theorem rhe_le (q : ℚ) : (rhe q : ℚ) ≤ q + 1 / 2 := by
  have hfl : (⌊q⌋ : ℚ) ≤ q := Int.floor_le q
  simp only [rhe]
  split_ifs with h1 h2 h3 <;> push_cast <;> linarith

theorem rhe_nonneg (q : ℚ) (hq : 0 ≤ q) : 0 ≤ rhe q := by
  have hfl : 0 ≤ ⌊q⌋ := Int.floor_nonneg.mpr hq
  simp only [rhe]
  split_ifs <;> omega

theorem rhe_intCast (n : ℤ) : rhe (n : ℚ) = n := by
  simp only [rhe, Int.floor_intCast, sub_self]
  norm_num

theorem npow_mul_zpow (e : ℤ) (n : ℕ) :
    (2 : ℚ) ^ (n : ℕ) * (2 : ℚ) ^ e = (2 : ℚ) ^ (e + n) := by
  rw [zpow_add₀ (two_ne_zero), ← zpow_natCast (2 : ℚ) n]
  ring

theorem rndPos_nonneg (q : ℚ) (hq : 0 ≤ q) : 0 ≤ rndPos q := by
  simp only [rndPos]
  have h2 : (0 : ℚ) < (2 : ℚ) ^ ulpExp q := by positivity
  have hr : 0 ≤ rhe (q / 2 ^ ulpExp q) := rhe_nonneg _ (by positivity)
  have : (0 : ℚ) ≤ (rhe (q / 2 ^ ulpExp q) : ℚ) := by exact_mod_cast hr
  positivity

theorem rnd_nonneg (q : ℚ) (hq : 0 ≤ q) : 0 ≤ rnd q := by
  simp only [rnd]
  split_ifs with h1 h2
  · exact absurd h1 (not_lt.mpr hq)
  · exact le_rfl
  · exact rndPos_nonneg q hq

theorem rndPos_le (q : ℚ) (hq : 0 < q) : rndPos q ≤ q + 2 ^ (ulpExp q - 1) := by
  simp only [rndPos]
  set e := ulpExp q with he
  have h2 : (0 : ℚ) < (2 : ℚ) ^ e := by positivity
  have hrhe : (rhe (q / 2 ^ e) : ℚ) ≤ q / 2 ^ e + 1 / 2 := rhe_le _
  calc (rhe (q / 2 ^ e) : ℚ) * 2 ^ e
      ≤ (q / 2 ^ e + 1 / 2) * 2 ^ e := by
        exact mul_le_mul_of_nonneg_right hrhe h2.le
    _ = q + 2 ^ e / 2 := by field_simp; ring
    _ = q + 2 ^ (e - 1) := by
        congr 1
        rw [zpow_sub₀ (two_ne_zero)]
        norm_num

theorem div_ulp_lt (q : ℚ) (hq : 0 < q) : q / 2 ^ ulpExp q < 2 ^ 53 := by
  have h1 : q < 2 ^ (ratLog2 q + 1) := (ratLog2_bounds q hq).2
  have h2 : ratLog2 q - 52 ≤ ulpExp q := le_max_left _ _
  have h2e : (0 : ℚ) < (2 : ℚ) ^ ulpExp q := by positivity
  rw [div_lt_iff h2e]
  have hle : (2 : ℚ) ^ (ratLog2 q + 1) ≤ (2 : ℚ) ^ (ulpExp q + 53) := by
    apply zpow_le_zpow_right₀ (by norm_num)
    omega
  calc q < (2 : ℚ) ^ (ratLog2 q + 1) := h1
    _ ≤ (2 : ℚ) ^ (ulpExp q + 53) := hle
    _ = (2 : ℚ) ^ (53 : ℕ) * (2 : ℚ) ^ ulpExp q := (npow_mul_zpow (ulpExp q) 53).symm

theorem repF64_zero : RepF64 0 :=
  ⟨0, 0, by norm_num, by norm_num, by norm_num⟩

theorem repF64_rnd (q : ℚ) (hq : 0 ≤ q) : RepF64 (rnd q) := by
  rcases eq_or_lt_of_le hq with h | h
  · rw [← h]
    have : rnd 0 = 0 := by norm_num [rnd]
    rw [this]
    exact repF64_zero
  · have hrnd : rnd q = rndPos q := by
      unfold rnd
      rw [if_neg (not_lt.mpr hq), if_neg (ne_of_gt h)]
    rw [hrnd]
    refine ⟨rhe (q / 2 ^ ulpExp q), ulpExp q, ?_, ulpExp_ge q, rfl⟩
    have h0 : 0 ≤ rhe (q / 2 ^ ulpExp q) := rhe_nonneg _ (by positivity)
    have hub : (rhe (q / 2 ^ ulpExp q) : ℚ) ≤ q / 2 ^ ulpExp q + 1 / 2 := rhe_le _
    have hlt : q / 2 ^ ulpExp q < 2 ^ 53 := div_ulp_lt q h
    have : (rhe (q / 2 ^ ulpExp q) : ℚ) < (2 : ℚ) ^ (53 : ℕ) + 1 := by
      calc (rhe (q / 2 ^ ulpExp q) : ℚ) ≤ q / 2 ^ ulpExp q + 1 / 2 := hub
        _ < (2 : ℚ) ^ (53 : ℕ) + 1 := by linarith
    have hzle : rhe (q / 2 ^ ulpExp q) < (2 : ℤ) ^ (53 : ℕ) + 1 := by
      exact_mod_cast this
    omega

theorem rndPos_eq_self (q : ℚ) (hq : 0 < q) (hrep : RepF64 q) : rndPos q = q := by
  obtain ⟨m, e, hm, he, heq⟩ := hrep
  have h2e : (0 : ℚ) < (2 : ℚ) ^ e := by positivity
  have hmpos : 0 < m := by
    by_contra hmn
    push_neg at hmn
    have : (m : ℚ) ≤ 0 := by exact_mod_cast hmn
    nlinarith [heq ▸ hq]
  have hm53 : m ≤ 2 ^ 53 := by omega
  have hub : ratLog2 q ≤ e + 53 := by
    by_contra hub
    push_neg at hub
    have h1 : (2 : ℚ) ^ ratLog2 q ≤ q := (ratLog2_bounds q hq).1
    have h2 : q ≤ (2 : ℚ) ^ (e + 53) := by
      rw [heq]
      have hmq : (m : ℚ) ≤ (2 : ℚ) ^ (53 : ℕ) := by exact_mod_cast hm53
      calc (m : ℚ) * 2 ^ e ≤ (2 : ℚ) ^ (53 : ℕ) * 2 ^ e :=
            mul_le_mul_of_nonneg_right hmq h2e.le
        _ = (2 : ℚ) ^ (e + 53) := npow_mul_zpow e 53
    have h3 : (2 : ℚ) ^ (e + 54) ≤ (2 : ℚ) ^ ratLog2 q := by
      apply zpow_le_zpow_right₀ (by norm_num)
      omega
    have h4 : (2 : ℚ) ^ (e + 53) < (2 : ℚ) ^ (e + 54) := by
      apply zpow_lt_zpow_right₀ (by norm_num)
      omega
    linarith
  obtain ⟨E, hE⟩ : ∃ E, ulpExp q = E := ⟨ulpExp q, rfl⟩
  have hrnd : rndPos q = (rhe (q / 2 ^ E) : ℚ) * 2 ^ E := by
    simp only [rndPos, hE]
  by_cases hcase : ratLog2 q ≤ e + 52
  · -- the grid exponent is at most e, so q is already on the grid
    have he1 : E ≤ e := by
      rw [← hE]
      simp only [ulpExp]
      omega
    have hk : 0 ≤ e - E := by omega
    have hpow : (2 : ℚ) ^ (e - E).toNat * 2 ^ E = 2 ^ e := by
      rw [← zpow_natCast (2 : ℚ) (e - E).toNat,
        show ((e - E).toNat : ℤ) = e - E from by omega, ← zpow_add₀ (two_ne_zero)]
      congr 1
      ring
    have hdiv : q / 2 ^ E = ((m * 2 ^ (e - E).toNat : ℤ) : ℚ) := by
      have h2E : (2 : ℚ) ^ E ≠ 0 := ne_of_gt (by positivity)
      rw [heq, ← hpow]
      push_cast
      field_simp
      ring
    rw [hrnd, hdiv, rhe_intCast, heq]
    push_cast
    rw [← hpow]
    ring
  · -- m must be exactly 2^53 and q = 2^(e+53)
    have hrl : ratLog2 q = e + 53 := by omega
    have hlow : (2 : ℚ) ^ (e + 53) ≤ q := by
      rw [← hrl]
      exact (ratLog2_bounds q hq).1
    have hqe : q = (2 : ℚ) ^ (e + 53) := by
      have hub2 : q ≤ (2 : ℚ) ^ (e + 53) := by
        rw [heq]
        have hmq : (m : ℚ) ≤ (2 : ℚ) ^ (53 : ℕ) := by exact_mod_cast hm53
        calc (m : ℚ) * 2 ^ e ≤ (2 : ℚ) ^ (53 : ℕ) * 2 ^ e :=
              mul_le_mul_of_nonneg_right hmq h2e.le
          _ = (2 : ℚ) ^ (e + 53) := npow_mul_zpow e 53
      linarith
    have hulp : E = e + 1 := by
      rw [← hE]
      simp only [ulpExp, hrl]
      omega
    have h252 : (2 : ℚ) ^ (52 : ℤ) = ((4503599627370496 : ℤ) : ℚ) := by
      rw [show (52 : ℤ) = ((52 : ℕ) : ℤ) from rfl, zpow_natCast]
      norm_num
    have hdiv : q / 2 ^ E = ((4503599627370496 : ℤ) : ℚ) := by
      rw [hqe, hulp, ← zpow_sub₀ (two_ne_zero)]
      have h52 : e + 53 - (e + 1) = (52 : ℤ) := by ring
      rw [h52]
      exact h252
    rw [hrnd, hdiv, rhe_intCast, hqe, hulp, ← h252, ← zpow_add₀ (two_ne_zero)]
    congr 1
    ring

theorem rnd_eq_self (q : ℚ) (hq : 0 ≤ q) (hrep : RepF64 q) : rnd q = q := by
  rcases eq_or_lt_of_le hq with h | h
  · rw [← h]
    norm_num [rnd]
  · have hrnd : rnd q = rndPos q := by
      unfold rnd
      rw [if_neg (not_lt.mpr hq), if_neg (ne_of_gt h)]
    rw [hrnd]
    exact rndPos_eq_self q h hrep

theorem rnd_of_pos (q : ℚ) (h : 0 < q) : rnd q = rndPos q := by
  unfold rnd
  rw [if_neg (not_lt.mpr h.le), if_neg (ne_of_gt h)]

theorem zpow_neg53_lt_one : (2 : ℚ) ^ (-53 : ℤ) < 1 := by
  rw [zpow_neg, show (53 : ℤ) = ((53 : ℕ) : ℤ) from rfl, zpow_natCast]
  norm_num

theorem zpow_neg_one_eq_half : (2 : ℚ) ^ (-1 : ℤ) = 1 / 2 := by
  rw [zpow_neg, zpow_one]
  norm_num

theorem zpow_neg53_le_half : (2 : ℚ) ^ (-53 : ℤ) ≤ 1 / 2 := by
  calc (2 : ℚ) ^ (-53 : ℤ) ≤ (2 : ℚ) ^ (-1 : ℤ) :=
        zpow_le_zpow_right₀ (by norm_num) (by norm_num)
    _ = 1 / 2 := zpow_neg_one_eq_half

theorem repF64_le_one_sub (f : ℚ) (hrep : RepF64 f) (h0 : 0 ≤ f) (h1 : f < 1) :
    f ≤ 1 - (2 : ℚ) ^ (-53 : ℤ) := by
  obtain ⟨m, e, hm, he, heq⟩ := hrep
  have h2e : (0 : ℚ) < 2 ^ e := by positivity
  have hm0 : 0 ≤ m := by
    by_contra hmn
    push_neg at hmn
    have hmq : (m : ℚ) < 0 := by exact_mod_cast hmn
    nlinarith [heq ▸ h0]
  rcases eq_or_lt_of_le hm0 with hm1 | hm1
  · have : f = 0 := by rw [heq, ← hm1]; norm_num
    rw [this]
    linarith [zpow_neg53_lt_one]
  by_cases he0 : 0 ≤ e
  · exfalso
    have hmq : (1 : ℚ) ≤ (m : ℚ) := by exact_mod_cast hm1
    have h2e1 : (1 : ℚ) ≤ 2 ^ e := by
      calc (1 : ℚ) = 2 ^ (0 : ℤ) := by norm_num
        _ ≤ 2 ^ e := zpow_le_zpow_right₀ (by norm_num) he0
    nlinarith [heq ▸ h1]
  push_neg at he0
  by_cases he54 : e ≤ -54
  · have hm53 : m ≤ 2 ^ 53 := by omega
    have hmq : (m : ℚ) ≤ (2 : ℚ) ^ (53 : ℕ) := by exact_mod_cast hm53
    have hup : f ≤ (2 : ℚ) ^ (e + 53) := by
      rw [heq]
      calc (m : ℚ) * 2 ^ e ≤ (2 : ℚ) ^ (53 : ℕ) * 2 ^ e :=
            mul_le_mul_of_nonneg_right hmq h2e.le
        _ = (2 : ℚ) ^ (e + 53) := npow_mul_zpow e 53
    have hhalf : (2 : ℚ) ^ (e + 53) ≤ (2 : ℚ) ^ (-1 : ℤ) :=
      zpow_le_zpow_right₀ (by norm_num) (by omega)
    have hh2 : (2 : ℚ) ^ (-1 : ℤ) = 1 / 2 := zpow_neg_one_eq_half
    have hfle2 : f ≤ 1 / 2 := by
      calc f ≤ 2 ^ (e + 53) := hup
        _ ≤ (2 : ℚ) ^ (-1 : ℤ) := hhalf
        _ = 1 / 2 := hh2
    have h53 : (2 : ℚ) ^ (-53 : ℤ) ≤ 1 / 2 := zpow_neg53_le_half
    generalize hgen : (2 : ℚ) ^ (-53 : ℤ) = t at h53 ⊢
    linarith
  push_neg at he54
  -- here -53 ≤ e ≤ -1
  have hpow : ((2 : ℚ) ^ (-e).toNat) * 2 ^ e = 1 := by
    rw [← zpow_natCast (2 : ℚ) (-e).toNat,
      show (((-e).toNat : ℤ)) = -e from by omega, ← zpow_add₀ (two_ne_zero)]
    norm_num
  have hmlt : (m : ℚ) < (2 : ℚ) ^ (-e).toNat := by
    have hmul : (m : ℚ) * 2 ^ e < ((2 : ℚ) ^ (-e).toNat) * 2 ^ e := by
      rw [hpow, ← heq]
      exact h1
    exact lt_of_mul_lt_mul_right hmul h2e.le
  have hmint : m < 2 ^ (-e).toNat := by exact_mod_cast hmlt
  have hmle : (m : ℚ) ≤ (2 : ℚ) ^ (-e).toNat - 1 := by
    have : m ≤ 2 ^ (-e).toNat - 1 := by omega
    have hcast : (m : ℚ) ≤ (((2 ^ (-e).toNat - 1 : ℤ)) : ℚ) := by exact_mod_cast this
    calc (m : ℚ) ≤ (((2 ^ (-e).toNat - 1 : ℤ)) : ℚ) := hcast
      _ = (2 : ℚ) ^ (-e).toNat - 1 := by push_cast; ring
  have hfle : f ≤ 1 - 2 ^ e := by
    rw [heq]
    calc (m : ℚ) * 2 ^ e ≤ ((2 : ℚ) ^ (-e).toNat - 1) * 2 ^ e :=
          mul_le_mul_of_nonneg_right hmle h2e.le
      _ = ((2 : ℚ) ^ (-e).toNat) * 2 ^ e - 2 ^ e := by ring
      _ = 1 - 2 ^ e := by rw [hpow]
  have h53e : (2 : ℚ) ^ (-53 : ℤ) ≤ 2 ^ e :=
    zpow_le_zpow_right₀ (by norm_num) (by omega)
  linarith

theorem rnd_lt_base (q : ℚ) (b : ℕ) (hq : 0 ≤ q) (hb : 1 ≤ b)
    (h : q ≤ (1 - (2 : ℚ) ^ (-53 : ℤ)) * b) : rnd q < b := by
  have hb1 : (1 : ℚ) ≤ (b : ℚ) := by exact_mod_cast hb
  have hbpos : (0 : ℚ) < (b : ℚ) := by linarith
  rcases eq_or_lt_of_le hq with h0 | h0
  · rw [← h0]
    have hz : rnd 0 = 0 := by norm_num [rnd]
    rw [hz]
    exact hbpos
  rw [rnd_of_pos q h0]
  have hle := rndPos_le q h0
  have hε : (0 : ℚ) < (2 : ℚ) ^ (-53 : ℤ) := by positivity
  by_cases hclamp : -1074 ≤ ratLog2 q - 52
  · have hulp : ulpExp q = ratLog2 q - 52 := by
      simp only [ulpExp]
      omega
    have hlow : (2 : ℚ) ^ ratLog2 q ≤ q := (ratLog2_bounds q h0).1
    have hterm : (2 : ℚ) ^ (ulpExp q - 1) ≤ q * (2 : ℚ) ^ (-53 : ℤ) := by
      rw [hulp]
      calc (2 : ℚ) ^ (ratLog2 q - 52 - 1)
          = (2 : ℚ) ^ ratLog2 q * 2 ^ (-53 : ℤ) := by
            rw [← zpow_add₀ (two_ne_zero)]
            congr 1
            ring
        _ ≤ q * 2 ^ (-53 : ℤ) := mul_le_mul_of_nonneg_right hlow hε.le
    have hq53 : rndPos q ≤ q * (1 + (2 : ℚ) ^ (-53 : ℤ)) := by
      have hexp : q * (1 + (2 : ℚ) ^ (-53 : ℤ)) = q + q * 2 ^ (-53 : ℤ) := by ring
      linarith
    have hmul : q * (1 + (2 : ℚ) ^ (-53 : ℤ)) ≤
        (1 - (2 : ℚ) ^ (-53 : ℤ)) * b * (1 + (2 : ℚ) ^ (-53 : ℤ)) :=
      mul_le_mul_of_nonneg_right h (by positivity)
    nlinarith [mul_pos hbpos (mul_pos hε hε)]
  · have hulp : ulpExp q = -1074 := by
      simp only [ulpExp]
      omega
    have hup : q < (2 : ℚ) ^ (ratLog2 q + 1) := (ratLog2_bounds q h0).2
    have hsm : (2 : ℚ) ^ (ratLog2 q + 1) ≤ (2 : ℚ) ^ (-1 : ℤ) :=
      zpow_le_zpow_right₀ (by norm_num) (by omega)
    have h1075 : (2 : ℚ) ^ (ulpExp q - 1) ≤ (2 : ℚ) ^ (-1 : ℤ) := by
      rw [hulp]
      exact zpow_le_zpow_right₀ (by norm_num) (by norm_num)
    have hhalf : (2 : ℚ) ^ (-1 : ℤ) = 1 / 2 := zpow_neg_one_eq_half
    have hq2 : q < 1 / 2 := by
      rw [← hhalf]
      exact lt_of_lt_of_le hup hsm
    have ht2 : (2 : ℚ) ^ (ulpExp q - 1) ≤ 1 / 2 := by
      rw [← hhalf]
      exact h1075
    linarith

theorem repF64_sub_floor (x : ℚ) (hx : 0 ≤ x) (hrep : RepF64 x) :
    RepF64 (x - (⌊x⌋ : ℚ)) := by
  obtain ⟨m, e, hm, he, heq⟩ := hrep
  have h2e : (0 : ℚ) < 2 ^ e := by positivity
  have hm0 : 0 ≤ m := by
    by_contra hmn
    push_neg at hmn
    have hmq : (m : ℚ) < 0 := by exact_mod_cast hmn
    nlinarith [heq ▸ hx]
  by_cases he0 : 0 ≤ e
  · have hxint : x = ((m * 2 ^ e.toNat : ℤ) : ℚ) := by
      rw [heq]
      push_cast
      rw [← zpow_natCast (2 : ℚ) e.toNat, show ((e.toNat : ℤ)) = e from by omega]
    have hzero : x - (⌊x⌋ : ℚ) = 0 := by
      rw [hxint, Int.floor_intCast]
      ring
    rw [hzero]
    exact repF64_zero
  push_neg at he0
  by_cases he54 : e ≤ -54
  · have hm53 : m ≤ 2 ^ 53 := by omega
    have hmq : (m : ℚ) ≤ (2 : ℚ) ^ (53 : ℕ) := by exact_mod_cast hm53
    have hx1 : x < 1 := by
      have hup : x ≤ (2 : ℚ) ^ (e + 53) := by
        rw [heq]
        calc (m : ℚ) * 2 ^ e ≤ (2 : ℚ) ^ (53 : ℕ) * 2 ^ e :=
              mul_le_mul_of_nonneg_right hmq h2e.le
          _ = (2 : ℚ) ^ (e + 53) := npow_mul_zpow e 53
      have hhalf : (2 : ℚ) ^ (e + 53) ≤ (2 : ℚ) ^ (-1 : ℤ) :=
        zpow_le_zpow_right₀ (by norm_num) (by omega)
      linarith [zpow_neg_one_eq_half ▸ hhalf]
    have hfl : ⌊x⌋ = 0 := Int.floor_eq_zero_iff.mpr (Set.mem_Ico.mpr ⟨hx, hx1⟩)
    rw [hfl]
    push_cast
    rw [sub_zero]
    exact ⟨m, e, hm, he, heq⟩
  push_neg at he54
  have hpow : ((2 : ℚ) ^ (-e).toNat) * 2 ^ e = 1 := by
    rw [← zpow_natCast (2 : ℚ) (-e).toNat,
      show (((-e).toNat : ℤ)) = -e from by omega, ← zpow_add₀ (two_ne_zero)]
    norm_num
  have heqM : x - (⌊x⌋ : ℚ) = ((m - ⌊x⌋ * 2 ^ (-e).toNat : ℤ) : ℚ) * 2 ^ e := by
    have hcast : ((m - ⌊x⌋ * 2 ^ (-e).toNat : ℤ) : ℚ) * 2 ^ e =
        (m : ℚ) * 2 ^ e - (⌊x⌋ : ℚ) * (((2 : ℚ) ^ (-e).toNat) * 2 ^ e) := by
      push_cast
      ring
    rw [hcast, hpow, mul_one, ← heq]
  have hsub0 : 0 ≤ x - (⌊x⌋ : ℚ) := sub_nonneg.mpr (Int.floor_le x)
  have hsub1 : x - (⌊x⌋ : ℚ) < 1 := by linarith [Int.lt_floor_add_one x]
  have hM0 : 0 ≤ m - ⌊x⌋ * 2 ^ (-e).toNat := by
    by_contra hMn
    push_neg at hMn
    have hMq : ((m - ⌊x⌋ * 2 ^ (-e).toNat : ℤ) : ℚ) < 0 := by exact_mod_cast hMn
    nlinarith [heqM ▸ hsub0]
  have hMlt : ((m - ⌊x⌋ * 2 ^ (-e).toNat : ℤ) : ℚ) < (2 : ℚ) ^ (-e).toNat := by
    have hmul : ((m - ⌊x⌋ * 2 ^ (-e).toNat : ℤ) : ℚ) * 2 ^ e <
        ((2 : ℚ) ^ (-e).toNat) * 2 ^ e := by
      rw [hpow, ← heqM]
      exact hsub1
    exact lt_of_mul_lt_mul_right hmul h2e.le
  have hMint : m - ⌊x⌋ * 2 ^ (-e).toNat < 2 ^ (-e).toNat := by exact_mod_cast hMlt
  have hMub : (2 : ℕ) ^ (-e).toNat ≤ 2 ^ 53 :=
    Nat.pow_le_pow_right (by norm_num) (by omega)
  have hMub2 : (2 : ℤ) ^ (-e).toNat ≤ 2 ^ 53 := by exact_mod_cast hMub
  exact ⟨m - ⌊x⌋ * 2 ^ (-e).toNat, e, by omega, he, heqM⟩

theorem step_spec (b : ℕ) (f : ℚ) (hb : 1 ≤ b) (hb2 : b ≤ u32max)
    (hrep : RepF64 f) (h0 : 0 ≤ f) (h1 : f < 1) :
    stepDigit b f < b ∧ RepF64 (stepRem b f) ∧ 0 ≤ stepRem b f ∧ stepRem b f < 1 := by
  have hfb0 : 0 ≤ f * (b : ℚ) := mul_nonneg h0 (by positivity)
  have hfb : f * (b : ℚ) ≤ (1 - (2 : ℚ) ^ (-53 : ℤ)) * b :=
    mul_le_mul_of_nonneg_right (repF64_le_one_sub f hrep h0 h1) (by positivity)
  set x := rnd (f * (b : ℚ)) with hxdef
  have hx0 : 0 ≤ x := rnd_nonneg _ hfb0
  have hxb : x < b := rnd_lt_base (f * b) b hfb0 hb hfb
  have hxrep : RepF64 x := repF64_rnd _ hfb0
  have hfl0 : 0 ≤ ⌊x⌋ := Int.floor_nonneg.mpr hx0
  have hflb : ⌊x⌋ < (b : ℤ) := Int.floor_lt.mpr (by exact_mod_cast hxb)
  have hbu : (b : ℤ) ≤ (u32max : ℤ) := by exact_mod_cast hb2
  have hdig : stepDigit b f = ⌊x⌋.toNat := by
    unfold stepDigit u32ofFloat
    rw [← hxdef, if_neg (not_lt.mpr hx0), min_eq_left (by omega)]
  have hdlt : stepDigit b f < b := by
    rw [hdig]
    omega
  have hdcast : ((stepDigit b f : ℕ) : ℚ) = ((⌊x⌋ : ℤ) : ℚ) := by
    rw [hdig]
    exact_mod_cast congrArg (fun z : ℤ => (z : ℚ)) (Int.toNat_of_nonneg hfl0)
  have hsubrep : RepF64 (x - (⌊x⌋ : ℚ)) := repF64_sub_floor x hx0 hxrep
  have hsub0 : 0 ≤ x - (⌊x⌋ : ℚ) := sub_nonneg.mpr (Int.floor_le x)
  have hsub1 : x - (⌊x⌋ : ℚ) < 1 := by linarith [Int.lt_floor_add_one x]
  have hrem : stepRem b f = x - (⌊x⌋ : ℚ) := by
    unfold stepRem
    rw [← hxdef, hdcast]
    exact rnd_eq_self _ hsub0 hsubrep
  exact ⟨hdlt, hrem ▸ hsubrep, hrem ▸ hsub0, hrem ▸ hsub1⟩

theorem trace_digits_lt (b : ℕ) (hb : 1 ≤ b) (hb2 : b ≤ u32max) :
    ∀ (n : ℕ) (f : ℚ), RepF64 f → 0 ≤ f → f < 1 →
      ∀ p ∈ traceAux b n f, p.1 < b := by
  intro n
  induction n with
  | zero =>
    intro f _ _ _ p hp
    rw [traceAux_zero] at hp
    simp at hp
  | succ n ih =>
    intro f hrep h0 h1 p hp
    obtain ⟨hdlt, hrrep, hr0, hr1⟩ := step_spec b f hb hb2 hrep h0 h1
    rw [traceAux_succ] at hp
    rcases List.mem_cons.mp hp with hph | hpt
    · rw [hph]
      exact hdlt
    · by_cases hz : stepRem b f = 0
      · rw [if_pos hz] at hpt
        simp at hpt
      · rw [if_neg hz] at hpt
        exact ih (stepRem b f) hrrep hr0 hr1 p hpt

theorem repF64_nat_div_pow (a k : ℕ) (ha : a ≤ 2 ^ 53) (hk : k ≤ 1074) :
    RepF64 ((a : ℚ) / 2 ^ k) := by
  refine ⟨(a : ℤ), -(k : ℤ), by simpa using ha, by omega, ?_⟩
  rw [zpow_neg, zpow_natCast]
  push_cast
  rw [div_eq_mul_inv]

theorem loop_exact (b v c : ℕ) (hbvc : b = 2 ^ v * c) (hb1 : 1 ≤ b) (hb64 : b ≤ 64) :
    ∀ n : ℕ, n ≤ 7 → ∀ fuel : ℕ, n ≤ fuel → ∀ j : ℕ, 0 < j → j < 2 ^ (v * n) →
      (traceAux b fuel ((j : ℚ) / 2 ^ (v * n))).length ≤ n ∧
      reconstruct b ((traceAux b fuel ((j : ℚ) / 2 ^ (v * n))).map Prod.fst) =
        (j : ℚ) / 2 ^ (v * n) := by
  have hc1 : 1 ≤ c := by
    rcases Nat.eq_zero_or_pos c with hc0 | hc0
    · subst hc0
      rw [Nat.mul_zero] at hbvc
      omega
    · exact hc0
  have h2vb : 2 ^ v ≤ b := by
    calc (2 : ℕ) ^ v = 2 ^ v * 1 := (mul_one _).symm
      _ ≤ 2 ^ v * c := Nat.mul_le_mul_left _ hc1
      _ = b := hbvc.symm
  have hv6 : v ≤ 6 := by
    have h26 : (2 : ℕ) ^ v ≤ 2 ^ 6 := by
      calc (2 : ℕ) ^ v ≤ b := h2vb
        _ ≤ 64 := hb64
        _ = 2 ^ 6 := by norm_num
    exact (Nat.pow_le_pow_iff_right (by norm_num)).mp h26
  intro n
  induction n with
  | zero =>
    intro _ fuel _ j hj0 hj
    rw [Nat.mul_zero, pow_zero] at hj
    omega
  | succ n ih =>
    intro h7 fuel hfuel j hj0 hj
    obtain ⟨fuel2, rfl⟩ : ∃ fuel2, fuel = fuel2 + 1 := ⟨fuel - 1, by omega⟩
    have hn6 : n ≤ 6 := by omega
    have hvn36 : v * n ≤ 36 := le_trans (Nat.mul_le_mul hv6 hn6) (by norm_num)
    have h2vn36 : (2 : ℕ) ^ (v * n) ≤ 2 ^ 36 := Nat.pow_le_pow_right (by norm_num) hvn36
    have hD0 : (0 : ℚ) < 2 ^ (v * n) := by positivity
    have hDne : ((2 : ℚ) ^ (v * n)) ≠ 0 := ne_of_gt hD0
    have hb0 : (0 : ℚ) < (b : ℚ) := by exact_mod_cast hb1
    have hbne : ((b : ℚ)) ≠ 0 := ne_of_gt hb0
    have hsplit2 : (2 : ℕ) ^ (v * (n + 1)) = 2 ^ (v * n) * 2 ^ v := by
      rw [← pow_add]
      congr 1
    -- the multiplication by the base is exact: r * b = (j*c) / 2^(v*n)
    have hrb : (j : ℚ) / 2 ^ (v * (n + 1)) * (b : ℚ) = ((j * c : ℕ) : ℚ) / 2 ^ (v * n) := by
      rw [hbvc]
      push_cast
      have hsplitq : (2 : ℚ) ^ (v * (n + 1)) = 2 ^ (v * n) * 2 ^ v := by
        rw [← pow_add]
        congr 1
      rw [hsplitq]
      field_simp
      ring
    have hj2 : j < 2 ^ (v * n) * 2 ^ v := by
      rw [← hsplit2]
      exact hj
    have hjcb : j * c < 2 ^ (v * n) * b := by
      calc j * c < (2 ^ (v * n) * 2 ^ v) * c := mul_lt_mul_of_pos_right hj2 hc1
        _ = 2 ^ (v * n) * b := by rw [hbvc]; ring
    have hjc53 : j * c ≤ 2 ^ 53 := by
      have h2 : 2 ^ (v * n) * b ≤ 2 ^ 36 * 64 := Nat.mul_le_mul h2vn36 hb64
      have h3 : (2 : ℕ) ^ 36 * 64 ≤ 2 ^ 53 := by norm_num
      omega
    have hxrep : RepF64 (((j * c : ℕ) : ℚ) / 2 ^ (v * n)) :=
      repF64_nat_div_pow _ _ hjc53 (by omega)
    have hxval : rnd ((j : ℚ) / 2 ^ (v * (n + 1)) * (b : ℚ)) =
        ((j * c : ℕ) : ℚ) / 2 ^ (v * n) := by
      rw [hrb]
      exact rnd_eq_self _ (by positivity) hxrep
    set d := (j * c) / 2 ^ (v * n) with hd_def
    set rem := (j * c) % 2 ^ (v * n) with hrem_def
    have hDpos : 0 < (2 : ℕ) ^ (v * n) := pow_pos (by norm_num) _
    have hsplitjc : 2 ^ (v * n) * d + rem = j * c := Nat.div_add_mod (j * c) (2 ^ (v * n))
    have hremlt : rem < 2 ^ (v * n) := Nat.mod_lt _ hDpos
    have hdb : d < b := by
      rw [hd_def, Nat.div_lt_iff_lt_mul hDpos]
      calc j * c < 2 ^ (v * n) * b := hjcb
        _ = b * 2 ^ (v * n) := by ring
    have hcastjc : ((j * c : ℕ) : ℚ) = 2 ^ (v * n) * (d : ℚ) + (rem : ℚ) := by
      exact_mod_cast hsplitjc.symm
    have hxdec : ((j * c : ℕ) : ℚ) / 2 ^ (v * n) = (d : ℚ) + (rem : ℚ) / 2 ^ (v * n) := by
      rw [hcastjc]
      field_simp
      ring
    have hrem01 : 0 ≤ (rem : ℚ) / 2 ^ (v * n) ∧ (rem : ℚ) / 2 ^ (v * n) < 1 := by
      constructor
      · positivity
      · rw [div_lt_one hD0]
        exact_mod_cast hremlt
    have hfloor : ⌊((j * c : ℕ) : ℚ) / 2 ^ (v * n)⌋ = (d : ℤ) := by
      rw [Int.floor_eq_iff]
      constructor
      · rw [hxdec]
        push_cast
        linarith [hrem01.1]
      · rw [hxdec]
        push_cast
        linarith [hrem01.2]
    have hd_u32 : d ≤ u32max := by
      have h64 : (64 : ℕ) ≤ u32max := by norm_num [u32max]
      omega
    have hstepd : stepDigit b ((j : ℚ) / 2 ^ (v * (n + 1))) = d := by
      unfold stepDigit u32ofFloat
      rw [hxval, hfloor, if_neg (not_lt.mpr (by positivity :
        (0 : ℚ) ≤ ((j * c : ℕ) : ℚ) / 2 ^ (v * n)))]
      simp only [Int.toNat_ofNat]
      exact min_eq_left hd_u32
    have hremrep : RepF64 ((rem : ℚ) / 2 ^ (v * n)) :=
      repF64_nat_div_pow _ _ (by omega) (by omega)
    have hstepr : stepRem b ((j : ℚ) / 2 ^ (v * (n + 1))) = (rem : ℚ) / 2 ^ (v * n) := by
      unfold stepRem
      rw [hstepd, hxval]
      have hxsub : ((j * c : ℕ) : ℚ) / 2 ^ (v * n) - (d : ℚ) = (rem : ℚ) / 2 ^ (v * n) := by
        rw [hxdec]
        ring
      rw [hxsub]
      exact rnd_eq_self _ hrem01.1 hremrep
    rw [traceAux_succ, hstepd, hstepr]
    by_cases hrem0 : rem = 0
    · have hzero : (rem : ℚ) / 2 ^ (v * n) = 0 := by
        rw [hrem0]
        norm_num
      rw [hzero, if_pos rfl]
      constructor
      · simp
      · have hx_d : ((j * c : ℕ) : ℚ) / 2 ^ (v * n) = (d : ℚ) := by
          rw [hxdec, hrem0]
          norm_num
        simp only [List.map_cons, List.map_nil, reconstruct]
        rw [add_zero, div_eq_iff hbne]
        exact (hrb.trans hx_d).symm
    · have hremne : (rem : ℚ) / 2 ^ (v * n) ≠ 0 := by
        intro hz
        rcases div_eq_zero_iff.mp hz with h | h
        · exact hrem0 (by exact_mod_cast h)
        · exact hDne h
      rw [if_neg hremne]
      obtain ⟨ihlen, ihrec⟩ :=
        ih (by omega) fuel2 (by omega) rem (Nat.pos_of_ne_zero hrem0) hremlt
      constructor
      · simp only [List.length_cons]
        omega
      · simp only [List.map_cons, reconstruct]
        rw [ihrec, ← hxdec, div_eq_iff hbne]
        exact hrb.symm

theorem concatAll_cons (s : String) (l : List String) :
    concatAll (s :: l) = s ++ concatAll l := rfl

theorem append_with_semicolon_ne_empty (a b : String) : a ++ ";" ++ b ≠ "" := by
  intro h
  have hd := congrArg String.data h
  simp at hd

theorem flatten_toList_eq_filterMap (pf : String → Option ℚ) :
    ∀ l : List String, (l.map fun a => (pf a).toList).flatten = l.filterMap pf := by
  intro l
  induction l with
  | nil => rfl
  | cons a l ih => cases h : pf a <;> simp [h, List.filterMap_cons, ih]

/-! ### The claims -/

/-- C1: the converter reproduces the literal spec scenarios exactly:
`convert(0.5, 2) = "0.1;"`, `convert(0.7, 2) = "0.1;0;1;1;0;0;1;1;"`,
`convert(0.8, 16) = "0.12;12;12;12;12;12;12;12;"` and
`convert(0.16666, 60) = "0.9;59;58;33;36;0;0;0;"`, where each decimal
literal denotes the binary64 value nearest to it. -/
theorem claim_C1 :
    convert_from_decimal_to_binary (rnd (1 / 2)) 2 = "0.1;" ∧
    convert_from_decimal_to_binary (rnd (7 / 10)) 2 = "0.1;0;1;1;0;0;1;1;" ∧
    convert_from_decimal_to_binary (rnd (8 / 10)) 16 = "0.12;12;12;12;12;12;12;12;" ∧
    convert_from_decimal_to_binary (rnd (16666 / 100000)) 60 = "0.9;59;58;33;36;0;0;0;" := by
  refine ⟨?_, ?_, ?_, ?_⟩ <;> decide

/-- C10: for every base `b`, `convert(0.0, b)` returns exactly `"0.0;"`,
producing a single zero digit and terminating on the first iteration. -/
theorem claim_C10 (b : ℕ) :
    convert_from_decimal_to_binary 0 b = "0.0;" ∧ (traceConv 0 b).length = 1 := by
  have hd : stepDigit b 0 = 0 := by
    simp [stepDigit, u32ofFloat, rnd]
  have hr : stepRem b 0 = 0 := by
    simp [stepRem, hd, rnd]
  constructor
  · show convLoop b MAX_DIGITS "0." 0 = "0.0;"
    rw [show MAX_DIGITS = 7 + 1 from rfl, convLoop_succ, if_pos hr, hd]
    rfl
  · show (traceAux b MAX_DIGITS 0).length = 1
    rw [show MAX_DIGITS = 7 + 1 from rfl, traceAux_succ, if_pos hr]
    rfl

/-- C2 counterexample, two parts.  First, the expansion-length bound is
needed: the binary64 value written `0.1` lies in `[0, 1)` and has an exact
finite expansion in base 2 (it is the dyadic rational 3602879701896397/2^55),
yet `convert(0.1, 2)` emits all `MAX_DIGITS` digits and the value
reconstructed from them differs from the input.  Second, a bound on the base
is needed even for short expansions: the binary64 value (2^51 - 1)/2^51 lies
in `[0, 1)` and equals `k / 655360^3` for a natural `k` (an exact 3-digit
expansion in base 655360 = 2^17 * 5), yet rounding inside the loop makes the
reconstructed value differ from the input. -/
theorem counterexample_C2 :
    (FiniteExpansion (rnd (1 / 10)) 2 ∧ 0 ≤ rnd (1 / 10) ∧ rnd (1 / 10) < 1 ∧
      ¬((digitsOf (rnd (1 / 10)) 2).length < MAX_DIGITS ∧
        reconstruct 2 (digitsOf (rnd (1 / 10)) 2) = rnd (1 / 10))) ∧
    ((∃ k : ℕ, (2251799813685247 : ℚ) / 2 ^ 51 = (k : ℚ) / (655360 : ℚ) ^ 3) ∧
      rnd ((2251799813685247 : ℚ) / 2 ^ 51) = (2251799813685247 : ℚ) / 2 ^ 51 ∧
      0 ≤ (2251799813685247 : ℚ) / 2 ^ 51 ∧ (2251799813685247 : ℚ) / 2 ^ 51 < 1 ∧
      ¬((digitsOf ((2251799813685247 : ℚ) / 2 ^ 51) 655360).length < MAX_DIGITS ∧
        reconstruct 655360 (digitsOf ((2251799813685247 : ℚ) / 2 ^ 51) 655360) =
          (2251799813685247 : ℚ) / 2 ^ 51)) := by
  refine ⟨⟨⟨55, 3602879701896397, by decide⟩, by decide, by decide, by decide⟩,
    ⟨281474976710655875, by decide⟩, by decide, by decide, by decide, by decide⟩

/-- C2 (amended): for every base `b = 2^v * c` with `1 ≤ b ≤ 64` — covering
every base the spec exercises (2, 8, 16, 60) — and every fractional input
`f` in `[0, 1)` that is an integer multiple of `2 ^ -(v * (MAX_DIGITS - 1))`
(exactly the binary64 values whose base-`b` expansion is finite with fewer
than `MAX_DIGITS` digits), `convert(f, b)` terminates before producing
`MAX_DIGITS` digits and the value reconstructed from the returned digits as
`sum (digit i * b ^ -(i+1))` equals `f` exactly. -/
theorem claim_C2 (f : ℚ) (b v c j : ℕ) (hbvc : b = 2 ^ v * c) (hb1 : 1 ≤ b)
    (hb64 : b ≤ 64) (hj : j < 2 ^ (v * (MAX_DIGITS - 1)))
    (hf : f = (j : ℚ) / 2 ^ (v * (MAX_DIGITS - 1))) :
    FiniteExpansion f b ∧ (digitsOf f b).length < MAX_DIGITS ∧
    reconstruct b (digitsOf f b) = f := by
  have h7 : MAX_DIGITS - 1 = 7 := rfl
  rw [h7] at hj hf
  have hc1 : 1 ≤ c := by
    rcases Nat.eq_zero_or_pos c with hc0 | hc0
    · subst hc0
      rw [Nat.mul_zero] at hbvc
      omega
    · exact hc0
  have hcq : ((c : ℚ)) ≠ 0 := by positivity
  have h2vq : ((2 : ℚ) ^ v) ≠ 0 := by positivity
  refine ⟨⟨7, j * c ^ 7, ?_⟩, ?_⟩
  · rw [hf, hbvc]
    push_cast
    field_simp
    ring
  rcases Nat.eq_zero_or_pos j with hj0 | hj0
  · have hf0 : f = 0 := by
      rw [hf, hj0]
      norm_num
    have hd : stepDigit b 0 = 0 := by simp [stepDigit, u32ofFloat, rnd]
    have hr : stepRem b 0 = 0 := by simp [stepRem, hd, rnd]
    constructor
    · show ((traceAux b MAX_DIGITS f).map Prod.fst).length < MAX_DIGITS
      rw [hf0, show MAX_DIGITS = 7 + 1 from rfl, traceAux_succ, if_pos hr]
      simp
    · show reconstruct b ((traceAux b MAX_DIGITS f).map Prod.fst) = f
      rw [hf0, show MAX_DIGITS = 7 + 1 from rfl, traceAux_succ, if_pos hr, hd]
      simp [reconstruct]
  · obtain ⟨hlen, hrec⟩ :=
      loop_exact b v c hbvc hb1 hb64 7 le_rfl MAX_DIGITS (by decide) j hj0 hj
    constructor
    · show ((traceAux b MAX_DIGITS f).map Prod.fst).length < MAX_DIGITS
      rw [List.length_map, hf]
      calc (traceAux b MAX_DIGITS ((j : ℚ) / 2 ^ (v * 7))).length ≤ 7 := hlen
        _ < MAX_DIGITS := by decide
    · show reconstruct b ((traceAux b MAX_DIGITS f).map Prod.fst) = f
      rw [hf]
      exact hrec

theorem claim_C2_witness :
    FiniteExpansion (1 / 2 : ℚ) 8 ∧ (digitsOf (1 / 2 : ℚ) 8).length < MAX_DIGITS ∧
    reconstruct 8 (digitsOf (1 / 2 : ℚ) 8) = 1 / 2 :=
  claim_C2 (1 / 2) 8 3 1 1048576 (by norm_num) (by norm_num) (by norm_num)
    (by decide) (by decide)

/-- C3: a run whose remainders never reach exact zero within the cap emits
exactly `MAX_DIGITS` (= 8) digit entries; in particular 0.1, 0.3, 0.6, 0.7,
0.8 and 0.9 (as binary64 values) in base 2 each yield the fixed 8-digit
expansion of the test corpus. -/
theorem claim_C3 :
    (∀ (f : ℚ) (b : ℕ),
      (∀ p ∈ traceConv f b, p.2 ≠ 0) → (digitsOf f b).length = MAX_DIGITS) ∧
    digitsOf (rnd (1 / 10)) 2 = [0, 0, 0, 1, 1, 0, 0, 1] ∧
    digitsOf (rnd (3 / 10)) 2 = [0, 1, 0, 0, 1, 1, 0, 0] ∧
    digitsOf (rnd (6 / 10)) 2 = [1, 0, 0, 1, 1, 0, 0, 1] ∧
    digitsOf (rnd (7 / 10)) 2 = [1, 0, 1, 1, 0, 0, 1, 1] ∧
    digitsOf (rnd (8 / 10)) 2 = [1, 1, 0, 0, 1, 1, 0, 0] ∧
    digitsOf (rnd (9 / 10)) 2 = [1, 1, 1, 0, 0, 1, 1, 0] := by
  refine ⟨?_, by decide, by decide, by decide, by decide, by decide, by decide⟩
  intro f b hall
  show ((traceAux b MAX_DIGITS f).map Prod.fst).length = MAX_DIGITS
  rw [List.length_map]
  exact traceAux_length_of_ne_zero b MAX_DIGITS f hall

theorem claim_C3_witness :
    (digitsOf (rnd (7 / 10)) 2).length = MAX_DIGITS :=
  claim_C3.1 (rnd (7 / 10)) 2 (by decide)

/-- C5: the loop stops early exactly on a remainder that is bit-exact zero:
every remainder before the last entry of the trace is nonzero (a zero
remainder always ends the run), and a run shorter than `MAX_DIGITS` ends
with remainder exactly 0. -/
theorem claim_C5 (f : ℚ) (b : ℕ) :
    (∀ p ∈ (traceConv f b).dropLast, p.2 ≠ 0) ∧
    ((traceConv f b).length < MAX_DIGITS →
      ∃ p, (traceConv f b).getLast? = some p ∧ p.2 = 0) :=
  ⟨traceAux_dropLast_ne_zero b MAX_DIGITS f, traceAux_early_stop b MAX_DIGITS f⟩

theorem claim_C5_witness :
    ∃ p, (traceConv (1 / 2 : ℚ) 2).getLast? = some p ∧ p.2 = 0 :=
  (claim_C5 (1 / 2) 2).2 (by decide)

/-- C6: for every input, the returned string is the digit sequence rendered
as each digit's decimal representation followed by the separator `";"`,
concatenated in extraction order and prefixed with `"0."`. -/
theorem claim_C6 (f : ℚ) (b : ℕ) :
    convert_from_decimal_to_binary f b =
      "0." ++ concatAll ((digitsOf f b).map fun d => Nat.repr d ++ ";") := by
  show convLoop b MAX_DIGITS "0." f = _
  rw [convLoop_eq_trace]
  show _ = "0." ++ concatAll
    (((traceAux b MAX_DIGITS f).map Prod.fst).map fun d => Nat.repr d ++ ";")
  rw [List.map_map]
  rfl

/-- C7: the converter is deterministic: two calls on identical inputs yield
identical output strings (it is a pure function of its two arguments). -/
theorem claim_C7 (f1 f2 : ℚ) (b1 b2 : ℕ) (hf : f1 = f2) (hb : b1 = b2) :
    convert_from_decimal_to_binary f1 b1 = convert_from_decimal_to_binary f2 b2 := by
  rw [hf, hb]

theorem claim_C7_witness :
    convert_from_decimal_to_binary (rnd (7 / 10)) 2 =
      convert_from_decimal_to_binary (rnd (7 / 10)) 2 :=
  claim_C7 (rnd (7 / 10)) (rnd (7 / 10)) 2 2 rfl rfl

/-- C9: the converter is total, with no failure path: for every non-negative
finite input and base at least 2 it returns a string of the documented shape
("0." followed by a nonempty digit rendering); in the embedding every
operation of the source is total, so no input can panic. -/
theorem claim_C9 (f : ℚ) (b : ℕ) (hf : 0 ≤ f) (hb : 2 ≤ b) :
    ∃ t, convert_from_decimal_to_binary f b = "0." ++ t ∧ t ≠ "" := by
  refine ⟨_, claim_C6 f b, ?_⟩
  show concatAll ((digitsOf f b).map fun d => Nat.repr d ++ ";") ≠ ""
  show concatAll (((traceAux b MAX_DIGITS f).map Prod.fst).map fun d => Nat.repr d ++ ";") ≠ ""
  rw [show MAX_DIGITS = 7 + 1 from rfl, traceAux_succ]
  by_cases h : stepRem b f = 0
  · rw [if_pos h]
    exact append_with_semicolon_ne_empty _ _
  · rw [if_neg h]
    exact append_with_semicolon_ne_empty _ _

theorem claim_C9_witness :
    ∃ t, convert_from_decimal_to_binary (1 / 2 : ℚ) 2 = "0." ++ t ∧ t ≠ "" :=
  claim_C9 (1 / 2) 2 (by norm_num) (by norm_num)

/-- C8: argument parsing is tolerant and never crashes (the embedded
`parse_input` is a total function of the argument list): when argument 1 is
absent or fails to parse as a `u32` the base is 2, and the number list is
exactly the later arguments that parse as `f64`, unparsable ones silently
dropped. -/
theorem claim_C8 (pu : String → Option ℕ) (pf : String → Option ℚ)
    (args : List String) :
    ((args.get? 1).bind pu = none → (parse_input pu pf args).1 = 2) ∧
    (parse_input pu pf args).2 =
      (args.drop (if ((args.get? 1).bind pu).isSome then 2 else 1)).filterMap pf ∧
    ∀ q ∈ (parse_input pu pf args).2, ∃ a ∈ args, pf a = some q := by
  have h2 : (parse_input pu pf args).2 =
      (args.drop (if ((args.get? 1).bind pu).isSome then 2 else 1)).filterMap pf := by
    show ((args.drop _).map fun a => (pf a).toList).flatten = _
    rw [flatten_toList_eq_filterMap]
  refine ⟨?_, h2, ?_⟩
  · intro h
    show ((args.get? 1).bind pu).getD 2 = 2
    rw [h]
    rfl
  · intro q hq
    rw [h2] at hq
    obtain ⟨a, ha, hpa⟩ := List.mem_filterMap.mp hq
    exact ⟨a, List.drop_subset _ _ ha, hpa⟩

theorem claim_C8_witness :
    (parse_input puNone pfHalf argsDemo).1 = 2 :=
  (claim_C8 puNone pfHalf argsDemo).1 (by decide)

/-- C4 counterexample: the claim fails for inputs outside `[0, 1)` and for
base 0: `convert(1.5, 2)` emits the digit 3, which is not below the base 2,
and `convert(0.5, 0)` emits the digit 0, which is not in the empty range
`[0, 0)`.  Both inputs are exact binary64 values. -/
theorem counterexample_C4 :
    rnd (3 / 2 : ℚ) = 3 / 2 ∧ ¬(∀ d ∈ digitsOf (3 / 2 : ℚ) 2, d < 2) ∧
    ¬(∀ d ∈ digitsOf (1 / 2 : ℚ) 0, d < 0) :=
  ⟨by decide, by decide, by decide⟩

/-- C4 (amended): for every binary64 input `f` with `0 ≤ f < 1` and every
base `b` with `1 ≤ b ≤ u32::MAX`, every digit emitted by `convert(f, b)`
satisfies `0 ≤ d < b` (digits are naturals, so `0 ≤ d` is inherent). -/
theorem claim_C4 (f : ℚ) (b : ℕ) (hf : rnd f = f) (h0 : 0 ≤ f) (h1 : f < 1)
    (hb : 1 ≤ b) (hb2 : b ≤ u32max) : ∀ d ∈ digitsOf f b, d < b := by
  intro d hd
  have hrep : RepF64 f := hf ▸ repF64_rnd f h0
  simp only [digitsOf, traceConv, List.mem_map] at hd
  obtain ⟨p, hp, hpd⟩ := hd
  rw [← hpd]
  exact trace_digits_lt b hb hb2 MAX_DIGITS f hrep h0 h1 p hp

theorem claim_C4_witness :
    1 ∈ digitsOf (1 / 2 : ℚ) 2 ∧ 1 < 2 :=
  ⟨by decide,
    claim_C4 (1 / 2) 2 (by decide) (by norm_num) (by norm_num) (by norm_num)
      (by norm_num [u32max]) 1 (by decide)⟩
